import Mathlib

/-!
Shallow embedding of the rand-unique crate (src/builder.rs, src/sequence.rs).

A machine integer of bit width `w` is modelled as a `Nat` that is `< 2 ^ w`;
wrapping arithmetic is explicit `% 2 ^ w`.  The double-width intermediate type
used by `QuadraticResidue::residue` and `modulo_add` is modelled by `% 2 ^ (2 * w)`.
The external crate predicate `machine_prime::is_prime` is modelled by
mathematical primality `Nat.Prime` (its documented contract).
-/

namespace RandUnique

/-- Wrapping addition at bit width `w` (`T::wrapping_add`). -/
def wrapping_add (w a b : Nat) : Nat := (a + b) % 2 ^ w

/-- Wrapping subtraction at bit width `w` (`T::wrapping_sub`). -/
def wrapping_sub (w a b : Nat) : Nat := (a + (2 ^ w - b % 2 ^ w)) % 2 ^ w

/-- Loop body of `RandomSequenceBuilder::find_suitable_prime` (builder.rs lines 74-85):
walk downward by 2 while `number > 3`, stopping at the first candidate with
`number & 3 == 3` that is prime. -/
def fsp_loop (n : Nat) : Nat :=
  if h : 3 < n then
    if n &&& 3 = 3 ∧ Nat.Prime n then n
    else fsp_loop (n - 2)
  else n
termination_by n
decreasing_by omega

/-- `RandomSequenceBuilder::find_suitable_prime` (builder.rs lines 60-88). -/
def find_suitable_prime (max : Nat) : Nat :=
  if max ≤ 3 then max
  else fsp_loop (if max &&& 1 = 0 then max - 1 else max)

/-- `RandomSequenceBuilder<T>` (builder.rs lines 22-41); fields are the `T` values. -/
structure RandomSequenceBuilder where
  seed : Nat
  prime : Nat
  max : Nat
  intermediate_a : Nat
  intermediate_b : Nat
deriving DecidableEq

/-- `RandomSequenceBuilder::with_max` (builder.rs lines 52-55). -/
def with_max (cfg : RandomSequenceBuilder) (max : Nat) : RandomSequenceBuilder :=
  { cfg with max := max, prime := find_suitable_prime max }

/-- Hardcoded constant `SEED_NOISE` (builder.rs line 150). -/
def SEED_NOISE : Nat := 6624854654305503467

/-- `RandomSequenceBuilder::<$type>::seed` (builder.rs lines 160-171, `impl_seed!` macro):
the u64 arithmetic happens at width 64, the trailing `as $type` casts are `% 2 ^ w`.
`primeHard` is the macro's hardcoded `$prime` literal for the width. -/
def seed_builder (w primeHard s : Nat) : RandomSequenceBuilder :=
  { seed := wrapping_add 64 (s ^^^ SEED_NOISE) SEED_NOISE % 2 ^ w
    intermediate_a := SEED_NOISE % 2 ^ w
    intermediate_b := wrapping_sub 64 (s >>> 1) (SEED_NOISE + 1) % 2 ^ w
    prime := primeHard
    max := 2 ^ w - 1 }

/-- `RandomSequenceBuilder::<u8>::seed` (builder.rs line 176). -/
def seed_u8 (s : Nat) : RandomSequenceBuilder := seed_builder 8 251 s

/-- `RandomSequenceBuilder::<u16>::seed` (builder.rs line 177). -/
def seed_u16 (s : Nat) : RandomSequenceBuilder := seed_builder 16 65519 s

/-- `RandomSequenceBuilder::<u32>::seed` (builder.rs line 178). -/
def seed_u32 (s : Nat) : RandomSequenceBuilder := seed_builder 32 4294967291 s

/-- `RandomSequenceBuilder::<u64>::seed` (builder.rs line 179); also `usize` on a
64-bit target (builder.rs line 183). -/
def seed_u64 (s : Nat) : RandomSequenceBuilder :=
  seed_builder 64 18446744073709551427 s

/-- `QuadraticResidue::residue` for the width-`w` type (builder.rs lines 199-201):
the squaring happens in the double-width type, modelled by `% 2 ^ (2 * w)`; the final
cast back to the base type is exact because the result is `< prime < 2 ^ w` whenever
`prime` is a base-type value. -/
def residue (w x prime : Nat) : Nat := (x * x % 2 ^ (2 * w)) % prime

/-- `QuadraticResidue::modulo_add` for the width-`w` type (builder.rs lines 204-209):
addition in the double-width type, reduced mod `max + 1`, with a wrapping-add fast
path when `max` is the full type maximum. -/
def modulo_add (w a b max : Nat) : Nat :=
  if max = 2 ^ w - 1 then wrapping_add w a b
  else ((a + b) % 2 ^ (2 * w)) % (max + 1)

/-- `RandomSequenceBuilder::permute_qpr` (builder.rs lines 92-122). -/
def permute_qpr (w : Nat) (cfg : RandomSequenceBuilder) (x : Nat) : Nat :=
  if cfg.prime ≤ x ∧ 1 < cfg.prime then
    if cfg.intermediate_b &&& 1 = 0 then
      if x = cfg.prime then cfg.max
      else if x = cfg.max then cfg.prime
      else x
    else x
  else if x ≤ 1 then
    (x ^^^ (cfg.seed &&& 1)) &&& (if 0 < cfg.max then 1 else 0)
  else
    let r := residue w x cfg.prime
    if x ≤ cfg.prime >>> 1 then r else cfg.prime - r

/-- `RandomSequence<T>` (sequence.rs lines 18-28). -/
structure RandomSequence where
  config : RandomSequenceBuilder
  start_index : Nat
  current_index : Nat
deriving DecidableEq

/-- `IntoIterator::into_iter for RandomSequenceBuilder` (builder.rs lines 133-145). -/
def into_iter (w : Nat) (cfg : RandomSequenceBuilder) : RandomSequence :=
  let start_index :=
    if 0 < cfg.max then
      permute_qpr w cfg (wrapping_add w (permute_qpr w cfg cfg.seed) cfg.intermediate_b)
    else 0
  { config := cfg, start_index := start_index, current_index := start_index }

/-- `RandomSequence::n_internal` (sequence.rs lines 61-69). -/
def n_internal (w : Nat) (s : RandomSequence) (index : Nat) : Nat :=
  let actual_index :=
    if s.config.max ≠ 2 ^ w - 1 then index % (s.config.max + 1) else index
  let inner_residue :=
    permute_qpr w s.config (modulo_add w actual_index s.config.intermediate_b s.config.max)
  permute_qpr w s.config (modulo_add w inner_residue s.config.intermediate_a s.config.max)

/-- `RandomSequence::next` (sequence.rs lines 36-40): returns the produced value and
the successor cursor state. -/
def next (w : Nat) (s : RandomSequence) : Nat × RandomSequence :=
  (n_internal w s s.current_index,
   { s with current_index := wrapping_add w s.current_index 1 })

/-- `RandomSequence::prev` (sequence.rs lines 44-48): decrement first, then compute. -/
def prev (w : Nat) (s : RandomSequence) : Nat × RandomSequence :=
  let s' := { s with current_index := wrapping_sub w s.current_index 1 }
  (n_internal w s' s'.current_index, s')

/-- `RandomSequence::n` (sequence.rs lines 52-55). -/
def n (w : Nat) (s : RandomSequence) (index : Nat) : Nat :=
  n_internal w s (wrapping_add w s.start_index index)

/-- `RandomSequence::index` (sequence.rs lines 73-75). -/
def index (w : Nat) (s : RandomSequence) : Nat :=
  wrapping_sub w s.current_index s.start_index

/-- `Iterator::next for RandomSequence` (sequence.rs lines 85-87): unconditionally
`Some(self.next())`. -/
def iter_next (w : Nat) (s : RandomSequence) : Option Nat × RandomSequence :=
  (some (next w s).1, (next w s).2)

/-- Cursor state after `k` successive `RandomSequence::next` calls. -/
def iterate_next (w : Nat) (s : RandomSequence) : Nat → RandomSequence
  | 0 => s
  | k + 1 => iterate_next w (next w s).2 k

/-- Cursor state after `k` successive `RandomSequence::prev` calls. -/
def iterate_prev (w : Nat) (s : RandomSequence) : Nat → RandomSequence
  | 0 => s
  | k + 1 => iterate_prev w (prev w s).2 k

/-- The list of values produced by `k` successive `RandomSequence::next` calls. -/
def next_values (w : Nat) (s : RandomSequence) : Nat → List Nat
  | 0 => []
  | k + 1 => (next w s).1 :: next_values w (next w s).2 k

/-- The list of results of `k` successive `Iterator::next` calls. -/
def iter_collect (w : Nat) (s : RandomSequence) : Nat → List (Option Nat)
  | 0 => []
  | k + 1 => (iter_next w s).1 :: iter_collect w (iter_next w s).2 k

/-- The mathematical content of the third branch of `permute_qpr`: fold the
quadratic residue of `x` back through `prime - residue` on the upper half range. -/
def qpr_fold (p x : Nat) : Nat := if x ≤ p / 2 then x * x % p else p - x * x % p

/-! ### Correctness of the prime search -/

/-- Bridging identity for the `number & 3 == 3` bitmask test (builder.rs line 76). -/
lemma land_three_eq_mod (x : Nat) : x &&& 3 = x % 4 := by
  have h := Nat.and_pow_two_sub_one_eq_mod x 2
  norm_num at h
  exact h

/-- The prime-search loop returns the largest prime `≡ 3 (mod 4)` at or below an odd
starting point `n ≥ 3` (with `3` as the default when nothing larger qualifies). -/
lemma fsp_loop_spec (n : Nat) : n % 2 = 1 → 3 ≤ n →
    Nat.Prime (fsp_loop n) ∧ fsp_loop n % 4 = 3 ∧ fsp_loop n ≤ n ∧
      ∀ q, Nat.Prime q → q % 4 = 3 → q ≤ n → q ≤ fsp_loop n := by
  induction n using Nat.strong_induction_on with
  | _ n ih =>
    intro hodd h3
    rw [fsp_loop]
    by_cases hlt : 3 < n
    · rw [dif_pos hlt]
      by_cases hcond : n &&& 3 = 3 ∧ Nat.Prime n
      · rw [if_pos hcond]
        obtain ⟨hm, hp⟩ := hcond
        rw [land_three_eq_mod] at hm
        exact ⟨hp, hm, le_refl n, fun q _ _ hq => hq⟩
      · rw [if_neg hcond]
        have h5 : 5 ≤ n := by omega
        obtain ⟨hp, hm4, hle, hmax⟩ := ih (n - 2) (by omega) (by omega) (by omega)
        refine ⟨hp, hm4, by omega, fun q hqp hq4 hqn => ?_⟩
        have hq2 : q % 2 = 1 := by omega
        have hqne : q ≠ n := by
          rintro rfl
          exact hcond ⟨by rw [land_three_eq_mod]; exact hq4, hqp⟩
        exact hmax q hqp hq4 (by omega)
    · rw [dif_neg hlt]
      have hn3 : n = 3 := by omega
      subst hn3
      exact ⟨Nat.prime_three, by norm_num, le_refl 3, fun q _ _ hq => hq⟩

/-- The prime-search result never exceeds its loop argument. -/
lemma fsp_loop_le (n : Nat) : fsp_loop n ≤ n := by
  induction n using Nat.strong_induction_on with
  | _ n ih =>
    rw [fsp_loop]
    split_ifs with h1 h2
    · exact le_refl n
    · exact le_trans (ih (n - 2) (by omega)) (by omega)
    · exact le_refl n

/-- The prime search never exceeds its bound. -/
lemma find_suitable_prime_le (b : Nat) : find_suitable_prime b ≤ b := by
  unfold find_suitable_prime
  split_ifs with h1 h2
  · exact le_refl b
  · exact le_trans (fsp_loop_le (b - 1)) (by omega)
  · exact fsp_loop_le b

/-- For `b ≥ 3` the prime search returns the largest prime `p ≤ b` with `p ≡ 3 (mod 4)`. -/
lemma find_suitable_prime_spec (b : Nat) (hb : 3 ≤ b) :
    Nat.Prime (find_suitable_prime b) ∧ find_suitable_prime b % 4 = 3 ∧
      find_suitable_prime b ≤ b ∧
      ∀ q, Nat.Prime q → q % 4 = 3 → q ≤ b → q ≤ find_suitable_prime b := by
  unfold find_suitable_prime
  rw [Nat.and_one_is_mod]
  by_cases hb3 : b ≤ 3
  · have hb' : b = 3 := by omega
    subst hb'
    rw [if_pos (le_refl 3)]
    exact ⟨Nat.prime_three, by norm_num, le_refl 3, fun q _ _ hq => hq⟩
  · rw [if_neg hb3]
    by_cases hev : b % 2 = 0
    · rw [if_pos hev]
      obtain ⟨hp, hm4, hle, hmax⟩ := fsp_loop_spec (b - 1) (by omega) (by omega)
      refine ⟨hp, hm4, by omega, fun q hqp hq4 hqb => ?_⟩
      have hq2 : q % 2 = 1 := by omega
      exact hmax q hqp hq4 (by omega)
    · rw [if_neg hev]
      obtain ⟨hp, hm4, hle, hmax⟩ := fsp_loop_spec b (by omega) (by omega)
      exact ⟨hp, hm4, hle, hmax⟩

/-- For bounds below 3 the prime search returns the bound unchanged. -/
lemma find_suitable_prime_degenerate (b : Nat) (hb : b < 3) : find_suitable_prime b = b := by
  unfold find_suitable_prime
  rw [if_pos (by omega)]

/-- Concrete evaluation: the search below 100 lands on 83. -/
lemma fsp_100 : find_suitable_prime 100 = 83 := by
  rw [find_suitable_prime]
  norm_num
  repeat (rw [fsp_loop]; norm_num [land_three_eq_mod])

/-- Concrete evaluation at 7. -/
lemma fsp_7 : find_suitable_prime 7 = 7 := by
  rw [find_suitable_prime]
  norm_num
  repeat (rw [fsp_loop]; norm_num [land_three_eq_mod])

/-- Concrete evaluation at 6. -/
lemma fsp_6 : find_suitable_prime 6 = 3 := by
  rw [find_suitable_prime]
  norm_num
  repeat (rw [fsp_loop]; norm_num [land_three_eq_mod])

/-- Concrete evaluation at 5 (used by the seed-0, max-5 regression vector). -/
lemma fsp_5 : find_suitable_prime 5 = 3 := by
  rw [find_suitable_prime]
  norm_num
  repeat (rw [fsp_loop]; norm_num [land_three_eq_mod])

/-! ### Exactness of the double-width arithmetic -/

/-- The double-width squaring never wraps for base-width inputs, so `residue`
computes the exact mathematical `(x * x) mod prime`. -/
lemma residue_exact (w x p : Nat) (hx : x < 2 ^ w) : residue w x p = x * x % p := by
  unfold residue
  congr 1
  apply Nat.mod_eq_of_lt
  calc x * x < 2 ^ w * 2 ^ w := Nat.mul_lt_mul_of_lt_of_lt hx hx
    _ = 2 ^ (2 * w) := by rw [two_mul, pow_add]

/-- The double-width addition never wraps for base-width inputs, so `modulo_add`
computes the exact `(a + b) mod (max + 1)` in both of its branches. -/
lemma modulo_add_exact (w a b max : Nat) (ha : a < 2 ^ w) (hb : b < 2 ^ w) :
    modulo_add w a b max = (a + b) % (max + 1) := by
  unfold modulo_add wrapping_add
  have hw : 0 < 2 ^ w := Nat.pos_pow_of_pos w (by norm_num)
  by_cases h : max = 2 ^ w - 1
  · rw [if_pos h, h]
    congr 1
    omega
  · rw [if_neg h]
    congr 1
    apply Nat.mod_eq_of_lt
    rcases Nat.eq_zero_or_pos w with h0 | h1
    · subst h0
      simp at ha hb
      omega
    · calc a + b < 2 ^ w + 2 ^ w := by omega
        _ = 2 ^ (w + 1) := by rw [pow_succ]; omega
        _ ≤ 2 ^ (2 * w) := Nat.pow_le_pow_right (by norm_num) (by omega)

/-! ### The folded quadratic residue map -/

/-- On `2 ≤ x < prime` the round function is exactly the folded quadratic residue. -/
lemma permute_qpr_eq_qpr_fold (w : Nat) (cfg : RandomSequenceBuilder) (x : Nat)
    (hx2 : 2 ≤ x) (hxp : x < cfg.prime) (hxw : x < 2 ^ w) :
    permute_qpr w cfg x = qpr_fold cfg.prime x := by
  simp only [permute_qpr, qpr_fold]
  rw [if_neg (by rintro ⟨h1, h2⟩; omega), if_neg (by omega),
    residue_exact w x _ hxw, Nat.shiftRight_eq_div_pow, pow_one]

/-- Primes congruent to 3 mod 4 admit no square root of `-1`. -/
lemma neg_one_not_sq {p : Nat} (hp : p.Prime) (h4 : p % 4 = 3) :
    ¬ IsSquare (-1 : ZMod p) := by
  haveI := Fact.mk hp
  rw [ZMod.exists_sq_eq_neg_one_iff]
  exact fun h => h h4

/-- Equal squares modulo a prime force equality, complement to `p`, or both zero. -/
lemma sq_eq_cases {p : Nat} (hp : p.Prime) (x y : Nat) (hx : x < p) (hy : y < p)
    (h : x * x % p = y * y % p) : x = y ∨ x + y = p ∨ x + y = 0 := by
  haveI := Fact.mk hp
  have hcast : ((x * x : Nat) : ZMod p) = ((y * y : Nat) : ZMod p) := by
    rw [ZMod.natCast_eq_natCast_iff']
    simpa using h
  push_cast at hcast
  have hfac : ((x : ZMod p) - y) * ((x : ZMod p) + y) = 0 := by
    linear_combination hcast
  rcases mul_eq_zero.mp hfac with h1 | h1
  · left
    have hxy : (x : ZMod p) = (y : ZMod p) := by linear_combination h1
    have := (ZMod.natCast_eq_natCast_iff' x y p).mp hxy
    rwa [Nat.mod_eq_of_lt hx, Nat.mod_eq_of_lt hy] at this
  · right
    have hsum : ((x + y : Nat) : ZMod p) = 0 := by push_cast; linear_combination h1
    have hdvd : p ∣ x + y := (ZMod.natCast_zmod_eq_zero_iff_dvd _ _).mp hsum
    obtain ⟨k, hk⟩ := hdvd
    have hk2 : k ≤ 1 := by
      by_contra hk2
      have : 2 * p ≤ p * k := by
        calc 2 * p = p * 2 := by ring
          _ ≤ p * k := Nat.mul_le_mul_left p (by omega)
      omega
    interval_cases k <;> omega

/-- A sum of squares hitting a multiple of `p` with one term invertible yields a
square root of `-1` modulo `p`. -/
lemma sum_sq_isSquare {p : Nat} (hp : p.Prime) (x y : Nat) (hx0 : 0 < x) (hxp : x < p)
    (h : (x * x + y * y) % p = 0) : IsSquare (-1 : ZMod p) := by
  haveI := Fact.mk hp
  have hdvd : p ∣ x * x + y * y := Nat.dvd_of_mod_eq_zero h
  have hsum : ((x : ZMod p) * x + (y : ZMod p) * y) = 0 := by
    have := (ZMod.natCast_zmod_eq_zero_iff_dvd (x * x + y * y) p).mpr hdvd
    push_cast at this
    linear_combination this
  have hX : (x : ZMod p) ≠ 0 := by
    rw [Ne, ZMod.natCast_zmod_eq_zero_iff_dvd]
    intro hd
    have := Nat.le_of_dvd hx0 hd
    omega
  have hinv : (x : ZMod p) * (x : ZMod p)⁻¹ = 1 := ZMod.mul_inv_of_unit _ (Ne.isUnit hX)
  have hval : ((y : ZMod p) * (x : ZMod p)⁻¹) * ((y : ZMod p) * (x : ZMod p)⁻¹)
      = -1 := by
    have h2 : (y : ZMod p) * (y : ZMod p) = -((x : ZMod p) * (x : ZMod p)) := by
      linear_combination hsum
    calc ((y : ZMod p) * (x : ZMod p)⁻¹) * ((y : ZMod p) * (x : ZMod p)⁻¹)
        = ((y : ZMod p) * y) * ((x : ZMod p)⁻¹ * (x : ZMod p)⁻¹) := by ring
      _ = -(((x : ZMod p) * (x : ZMod p)⁻¹) * ((x : ZMod p) * (x : ZMod p)⁻¹)) := by
          rw [h2]; ring
      _ = -1 := by rw [hinv]; ring
  exact ⟨_, hval.symm⟩

/-- Range of the folded quadratic residue: it maps `[2, p)` into `[2, p)`. -/
lemma qpr_fold_range {p : Nat} (hp : p.Prime) (h4 : p % 4 = 3) (x : Nat)
    (hx2 : 2 ≤ x) (hxp : x < p) : 2 ≤ qpr_fold p x ∧ qpr_fold p x < p := by
  have hp3 : 3 ≤ p := by have := hp.two_le; omega
  have hppos : 0 < p := by omega
  have hrlt : x * x % p < p := Nat.mod_lt _ hppos
  have hr0 : x * x % p ≠ 0 := by
    intro h0
    have hdvd : p ∣ x * x := Nat.dvd_of_mod_eq_zero h0
    rcases (Nat.Prime.dvd_mul hp).mp hdvd with hd | hd <;>
      exact absurd (Nat.le_of_dvd (by omega) hd) (by omega)
  unfold qpr_fold
  split_ifs with hhalf
  · have hr1 : x * x % p ≠ 1 := by
      intro h1
      have h1' : x * x % p = 1 * 1 % p := by
        rw [h1, Nat.mod_eq_of_lt (by omega)]
      rcases sq_eq_cases hp x 1 hxp (by omega) h1' with h | h | h <;> omega
    omega
  · have hrne : x * x % p ≠ p - 1 := by
      intro h1
      apply neg_one_not_sq hp h4
      apply sum_sq_isSquare hp x 1 (by omega) hxp
      rw [Nat.add_mod, h1, Nat.mod_eq_of_lt (show 1 * 1 < p by omega)]
      have hps : p - 1 + 1 * 1 = p := by omega
      rw [hps, Nat.mod_self]
    omega

/-- Injectivity of the folded quadratic residue on `[2, p)`. -/
lemma qpr_fold_inj {p : Nat} (hp : p.Prime) (h4 : p % 4 = 3) (x y : Nat)
    (hx2 : 2 ≤ x) (hxp : x < p) (hy2 : 2 ≤ y) (hyp : y < p)
    (heq : qpr_fold p x = qpr_fold p y) : x = y := by
  have hp3 : 3 ≤ p := by have := hp.two_le; omega
  have hpodd : p % 2 = 1 := by omega
  have hrx : x * x % p < p := Nat.mod_lt _ (by omega)
  have hry : y * y % p < p := Nat.mod_lt _ (by omega)
  unfold qpr_fold at heq
  have hsum : ∀ a b : Nat, 0 < a → a < p → b < p → a * a % p + b * b % p = p → False := by
    intro a b ha0 hap hbp hab
    apply neg_one_not_sq hp h4
    apply sum_sq_isSquare hp a b ha0 hap
    rw [Nat.add_mod, hab, Nat.mod_self]
  split_ifs at heq with h1 h2 h2
  · rcases sq_eq_cases hp x y hxp hyp heq with h | h | h <;> omega
  · exact absurd (hsum x y (by omega) hxp hyp (by omega)) id
  · exact absurd (hsum y x (by omega) hyp hxp (by omega)) id
  · have heq' : x * x % p = y * y % p := by omega
    rcases sq_eq_cases hp x y hxp hyp heq' with h | h | h <;> omega

/-! ### Region analysis of the round function -/

/-- Value of `permute_qpr` on the low region `x ≤ 1` with a nonempty upper domain. -/
lemma permute_qpr_of_low (w : Nat) (cfg : RandomSequenceBuilder) (x : Nat)
    (hx : x ≤ 1) (hxlt : x < cfg.prime ∨ cfg.prime ≤ 1) (hm : 0 < cfg.max) :
    permute_qpr w cfg x = (x ^^^ (cfg.seed &&& 1)) &&& 1 := by
  unfold permute_qpr
  rw [if_neg (by rintro ⟨h1, h2⟩; rcases hxlt with h | h <;> omega), if_pos hx, if_pos hm]

/-- Value of `permute_qpr` on the high region `prime ≤ x` when `prime > 1`. -/
lemma permute_qpr_of_high (w : Nat) (cfg : RandomSequenceBuilder) (x : Nat)
    (hpx : cfg.prime ≤ x) (hp1 : 1 < cfg.prime) :
    permute_qpr w cfg x =
      (if cfg.intermediate_b &&& 1 = 0 then
        if x = cfg.prime then cfg.max
        else if x = cfg.max then cfg.prime
        else x
      else x) := by
  unfold permute_qpr
  rw [if_pos ⟨hpx, hp1⟩]

/-- The low-region output is at most 1. -/
lemma low_out_le_one (x c : Nat) : (x ^^^ (c &&& 1)) &&& 1 ≤ 1 := by
  rw [Nat.and_one_is_mod]
  omega

/-- The low-region map is injective on `{0, 1}`. -/
lemma low_inj (x y c : Nat) (hx : x ≤ 1) (hy : y ≤ 1)
    (h : (x ^^^ (c &&& 1)) &&& 1 = (y ^^^ (c &&& 1)) &&& 1) : x = y := by
  have hc : c &&& 1 ≤ 1 := by rw [Nat.and_one_is_mod]; omega
  set d := c &&& 1 with hd
  clear_value d
  interval_cases d <;> interval_cases x <;> interval_cases y <;> revert h <;> decide

/-- The high-region output stays in `[prime, max]`. -/
lemma high_out_bounds (x p m b : Nat) (hpx : p ≤ x) (hxm : x ≤ m) (hpm : p ≤ m) :
    p ≤ (if b &&& 1 = 0 then if x = p then m else if x = m then p else x else x) ∧
      (if b &&& 1 = 0 then if x = p then m else if x = m then p else x else x) ≤ m := by
  split_ifs <;> omega

/-- The high-region map (a gated transposition of `prime` and `max`) is injective. -/
lemma high_inj (x y p m b : Nat) (hpx : p ≤ x) (hxm : x ≤ m) (hpy : p ≤ y) (hym : y ≤ m)
    (h : (if b &&& 1 = 0 then if x = p then m else if x = m then p else x else x)
       = (if b &&& 1 = 0 then if y = p then m else if y = m then p else y else y)) :
    x = y := by
  split_ifs at h <;> omega

/-- Bound on the round function output in terms of its inputs; used to show cursor
state stays within the integer width. -/
lemma permute_qpr_lt_two_pow (w : Nat) (cfg : RandomSequenceBuilder) (x : Nat)
    (hm : cfg.max < 2 ^ w) (hp : cfg.prime < 2 ^ w) (hx : x < 2 ^ w) :
    permute_qpr w cfg x < 2 ^ w := by
  simp only [permute_qpr]
  split_ifs with h1 h2 h3 h4 h5 h6 h7
  · exact hm
  · exact hp
  · exact hx
  · exact hx
  · have := low_out_le_one x cfg.seed
    omega
  · rw [Nat.and_zero]
    exact Nat.pos_pow_of_pos w (by norm_num)
  · have h7' : x ≤ cfg.prime / 2 := by
      rwa [Nat.shiftRight_eq_div_pow, pow_one] at h7
    have hps : 0 < cfg.prime := by omega
    exact lt_trans (Nat.mod_lt _ hps) hp
  · have : cfg.prime - residue w x cfg.prime ≤ cfg.prime := Nat.sub_le _ _
    omega

/-- The central bijection invariant: for any config whose `prime` was produced by
`find_suitable_prime` for its `max`, the round function maps `[0, max]` into
`[0, max]` injectively. -/
lemma permute_qpr_bijection_aux (w : Nat) (cfg : RandomSequenceBuilder)
    (hmax : cfg.max < 2 ^ w) (hvalid : cfg.prime = find_suitable_prime cfg.max) :
    (∀ x, x ≤ cfg.max → permute_qpr w cfg x ≤ cfg.max) ∧
      (∀ x y, x ≤ cfg.max → y ≤ cfg.max →
        permute_qpr w cfg x = permute_qpr w cfg y → x = y) := by
  rcases Nat.lt_or_ge cfg.max 3 with hsmall | hbig
  · -- degenerate domains: max ∈ {0, 1, 2}, prime = max
    have hpm : cfg.prime = cfg.max := by rw [hvalid, find_suitable_prime_degenerate _ hsmall]
    rcases Nat.eq_zero_or_pos cfg.max with hm0 | hmpos
    · -- max = 0: the only domain value 0 maps to 0
      constructor
      · intro x hx
        have hx0 : x = 0 := by omega
        subst hx0
        unfold permute_qpr
        rw [if_neg (by rintro ⟨h1, h2⟩; omega), if_pos (by omega), if_neg (by omega),
          Nat.and_zero]
        omega
      · intro x y hx hy _
        omega
    · have hlow : ∀ x, x ≤ 1 → permute_qpr w cfg x = (x ^^^ (cfg.seed &&& 1)) &&& 1 := by
        intro x hx
        apply permute_qpr_of_low w cfg x hx _ hmpos
        rcases Nat.lt_or_ge x cfg.prime with h | h
        · exact Or.inl h
        · right; omega
      rcases Nat.lt_or_ge cfg.max 2 with hm1 | hm2
      · -- max = 1: both domain values are in the low region
        constructor
        · intro x hx
          have hx1 : x ≤ 1 := by omega
          rw [hlow x hx1]
          have := low_out_le_one x cfg.seed
          omega
        · intro x y hx hy heq
          rw [hlow x (by omega), hlow y (by omega)] at heq
          exact low_inj x y cfg.seed (by omega) (by omega) heq
      · -- max = 2 = prime: x = 2 is a fixed point, {0, 1} is the low region
        have hm2' : cfg.max = 2 := by omega
        have hfix : permute_qpr w cfg 2 = 2 := by
          rw [permute_qpr_of_high w cfg 2 (by omega) (by omega)]
          split_ifs <;> omega
        constructor
        · intro x hx
          rcases Nat.lt_or_ge x 2 with hx1 | hx2
          · rw [hlow x (by omega)]
            have := low_out_le_one x cfg.seed
            omega
          · have hx2' : x = 2 := by omega
            rw [hx2', hfix]
            omega
        · intro x y hx hy heq
          rcases Nat.lt_or_ge x 2 with hx1 | hx2 <;> rcases Nat.lt_or_ge y 2 with hy1 | hy2
          · rw [hlow x (by omega), hlow y (by omega)] at heq
            exact low_inj x y cfg.seed (by omega) (by omega) heq
          · have hy2' : y = 2 := by omega
            rw [hlow x (by omega), hy2', hfix] at heq
            have := low_out_le_one x cfg.seed
            omega
          · have hx2' : x = 2 := by omega
            rw [hlow y (by omega), hx2', hfix] at heq
            have := low_out_le_one y cfg.seed
            omega
          · omega
  · -- main case: max ≥ 3, prime is a genuine prime ≡ 3 mod 4 with 3 ≤ prime ≤ max
    obtain ⟨hp, h4, hpm, -⟩ := find_suitable_prime_spec cfg.max hbig
    rw [← hvalid] at hp h4 hpm
    have hp3 : 3 ≤ cfg.prime := by have := hp.two_le; omega
    have hpw : cfg.prime < 2 ^ w := by omega
    -- region values
    have hlow : ∀ x, x ≤ 1 → permute_qpr w cfg x = (x ^^^ (cfg.seed &&& 1)) &&& 1 :=
      fun x hx => permute_qpr_of_low w cfg x hx (Or.inl (by omega)) (by omega)
    have hmid : ∀ x, 2 ≤ x → x < cfg.prime → permute_qpr w cfg x = qpr_fold cfg.prime x :=
      fun x hx2 hxp => permute_qpr_eq_qpr_fold w cfg x hx2 hxp (by omega)
    have hhigh : ∀ x, cfg.prime ≤ x → permute_qpr w cfg x =
        (if cfg.intermediate_b &&& 1 = 0 then
          if x = cfg.prime then cfg.max else if x = cfg.max then cfg.prime else x
        else x) :=
      fun x hpx => permute_qpr_of_high w cfg x hpx (by omega)
    -- region bounds
    have hboundlow : ∀ x, x ≤ 1 → permute_qpr w cfg x ≤ 1 := by
      intro x hx
      rw [hlow x hx]
      exact low_out_le_one x cfg.seed
    have hboundmid : ∀ x, 2 ≤ x → x < cfg.prime →
        2 ≤ permute_qpr w cfg x ∧ permute_qpr w cfg x < cfg.prime := by
      intro x hx2 hxp
      rw [hmid x hx2 hxp]
      exact qpr_fold_range hp h4 x hx2 hxp
    have hboundhigh : ∀ x, cfg.prime ≤ x → x ≤ cfg.max →
        cfg.prime ≤ permute_qpr w cfg x ∧ permute_qpr w cfg x ≤ cfg.max := by
      intro x hpx hxm
      rw [hhigh x hpx]
      exact high_out_bounds x cfg.prime cfg.max cfg.intermediate_b hpx hxm hpm
    constructor
    · intro x hx
      rcases Nat.lt_or_ge x 2 with h1 | h1
      · have := hboundlow x (by omega); omega
      · rcases Nat.lt_or_ge x cfg.prime with h2 | h2
        · have := hboundmid x h1 h2; omega
        · exact (hboundhigh x h2 hx).2
    · intro x y hx hy heq
      rcases Nat.lt_or_ge x 2 with hx1 | hx1 <;> rcases Nat.lt_or_ge y 2 with hy1 | hy1
      · rw [hlow x (by omega), hlow y (by omega)] at heq
        exact low_inj x y cfg.seed (by omega) (by omega) heq
      · -- x low, y mid or high: output ranges are disjoint
        have hbx := hboundlow x (by omega)
        rcases Nat.lt_or_ge y cfg.prime with hy2 | hy2
        · have := hboundmid y hy1 hy2; omega
        · have := hboundhigh y hy2 hy; omega
      · have hby := hboundlow y (by omega)
        rcases Nat.lt_or_ge x cfg.prime with hx2 | hx2
        · have := hboundmid x hx1 hx2; omega
        · have := hboundhigh x hx2 hx; omega
      · rcases Nat.lt_or_ge x cfg.prime with hx2 | hx2 <;>
          rcases Nat.lt_or_ge y cfg.prime with hy2 | hy2
        · rw [hmid x hx1 hx2, hmid y hy1 hy2] at heq
          exact qpr_fold_inj hp h4 x y hx1 hx2 hy1 hy2 heq
        · have h1 := hboundmid x hx1 hx2
          have h2 := hboundhigh y hy2 hy
          omega
        · have h1 := hboundhigh x hx2 hx
          have h2 := hboundmid y hy1 hy2
          omega
        · rw [hhigh x hx2, hhigh y hy2] at heq
          exact high_inj x y cfg.prime cfg.max cfg.intermediate_b hx2 hx hy2 hy heq

/-! ### Cursor state evolution -/

/-- The start (and initial current) index of a materialized cursor fits the width. -/
lemma into_iter_lt_two_pow (w : Nat) (cfg : RandomSequenceBuilder)
    (hm : cfg.max < 2 ^ w) (hp : cfg.prime < 2 ^ w) :
    (into_iter w cfg).start_index < 2 ^ w ∧ (into_iter w cfg).current_index < 2 ^ w := by
  have hw : 0 < 2 ^ w := Nat.pos_pow_of_pos w (by norm_num)
  simp only [into_iter]
  split_ifs with h0
  · constructor <;>
      exact permute_qpr_lt_two_pow w cfg _ hm hp (Nat.mod_lt _ hw)
  · exact ⟨hw, hw⟩

/-- After `k` forward steps the cursor is the same record with its current index
advanced by `k` modulo the width. -/
lemma iterate_next_eq (w : Nat) (s : RandomSequence) (k : Nat)
    (hc : s.current_index < 2 ^ w) :
    iterate_next w s k =
      { s with current_index := (s.current_index + k) % 2 ^ w } := by
  have hw : 0 < 2 ^ w := Nat.pos_pow_of_pos w (by norm_num)
  induction k generalizing s with
  | zero =>
    cases s with
    | mk cfg st c => simp [iterate_next, Nat.mod_eq_of_lt hc]
  | succ k ih =>
    rw [iterate_next, ih ((next w s).2) (Nat.mod_lt _ hw)]
    cases s with
    | mk cfg st c =>
      simp only [next, wrapping_add]
      rw [RandomSequence.mk.injEq]
      refine ⟨rfl, rfl, ?_⟩
      rw [Nat.mod_add_mod]
      congr 1
      omega

/-- After `k` backward steps the cursor is the same record with its current index
retreated by `k` modulo the width. -/
lemma iterate_prev_eq (w : Nat) (s : RandomSequence) (k : Nat)
    (hc : s.current_index < 2 ^ w) :
    iterate_prev w s k =
      { s with current_index :=
          (s.current_index + k * (2 ^ w - 1 % 2 ^ w)) % 2 ^ w } := by
  have hw : 0 < 2 ^ w := Nat.pos_pow_of_pos w (by norm_num)
  induction k generalizing s with
  | zero =>
    cases s with
    | mk cfg st c => simp [iterate_prev, Nat.mod_eq_of_lt hc]
  | succ k ih =>
    rw [iterate_prev, ih ((prev w s).2) (Nat.mod_lt _ hw)]
    cases s with
    | mk cfg st c =>
      simp only [prev, wrapping_sub]
      rw [RandomSequence.mk.injEq]
      refine ⟨rfl, rfl, ?_⟩
      rw [Nat.mod_add_mod]
      congr 1
      ring

/-- Adding back a wrapping difference recovers the minuend. -/
lemma wrap_add_sub_cancel (w a b : Nat) (ha : a < 2 ^ w) (hb : b < 2 ^ w) :
    wrapping_add w a (wrapping_sub w b a) = b := by
  unfold wrapping_add wrapping_sub
  rw [Nat.add_mod_mod, Nat.mod_eq_of_lt ha]
  have h1 : a + (b + (2 ^ w - a)) = b + 2 ^ w := by omega
  rw [h1, Nat.add_mod_right, Nat.mod_eq_of_lt hb]

/-! ### More auxiliary lemmas for the claims -/

/-- `modulo_add` with a zero `max` always collapses to the single domain value 0. -/
lemma modulo_add_max_zero (w a b : Nat) : modulo_add w a b 0 = 0 := by
  unfold modulo_add wrapping_add
  split_ifs with h
  · have hpow : 0 < (2 : Nat) ^ w := Nat.pos_pow_of_pos w (by norm_num)
    have h1 : (2 : Nat) ^ w = 1 := by omega
    rw [h1, Nat.mod_one]
  · simp [Nat.mod_one]

/-- The round function fixes 0 when the domain is the single value 0. -/
lemma permute_qpr_zero_of_max_zero (w : Nat) (cfg : RandomSequenceBuilder)
    (h0 : cfg.max = 0) : permute_qpr w cfg 0 = 0 := by
  unfold permute_qpr
  rw [if_neg (by rintro ⟨h1, h2⟩; omega), if_pos (by omega), if_neg (by omega), Nat.and_zero]

/-- The absolute-position lookup returns 0 on a single-element domain. -/
lemma n_internal_max_zero (w : Nat) (s : RandomSequence) (h0 : s.config.max = 0) (i : Nat) :
    n_internal w s i = 0 := by
  simp only [n_internal, h0]
  rw [modulo_add_max_zero, permute_qpr_zero_of_max_zero w _ h0]

/-- Literal form of the usize config with seed 0 and inclusive max 5 used by the
crate's own regression vector. -/
lemma cfg_seed0_max5_eq : with_max (seed_u64 0) 5 =
    ⟨13249709308611006934, 3, 5, 6624854654305503467, 11821889419404048148⟩ := by
  unfold with_max
  rw [fsp_5]
  decide

/-! ### Claim theorems -/

/-- C1: for every valid config (prime produced by `find_suitable_prime` for its max,
as `seed()` and `with_max()` do), the round function `permute_qpr` maps `[0, max]`
into `[0, max]` and is injective there, i.e. it is a bijection of the domain. -/
theorem permute_qpr_bijection (w : Nat) (cfg : RandomSequenceBuilder)
    (hmax : cfg.max < 2 ^ w) (hvalid : cfg.prime = find_suitable_prime cfg.max) :
    (∀ x, x ≤ cfg.max → permute_qpr w cfg x ≤ cfg.max) ∧
      (∀ x y, x ≤ cfg.max → y ≤ cfg.max →
        permute_qpr w cfg x = permute_qpr w cfg y → x = y) :=
  permute_qpr_bijection_aux w cfg hmax hvalid

/-- Witness for C1 at the concrete u8 config with seed 0 and max 3. -/
theorem permute_qpr_bijection_witness :
    permute_qpr 8 (with_max (seed_u8 0) 3) 0 ≤ (with_max (seed_u8 0) 3).max ∧
      permute_qpr 8 (with_max (seed_u8 0) 3) 3 ≤ (with_max (seed_u8 0) 3).max := by
  obtain ⟨hrange, hinj⟩ := permute_qpr_bijection 8 (with_max (seed_u8 0) 3) (by decide) rfl
  exact ⟨hrange 0 (by decide), hrange 3 (by decide)⟩

/-- C2: `find_suitable_prime` returns the largest prime `≡ 3 (mod 4)` at or below
any bound `≥ 3`, returns degenerate bounds unchanged, and takes the concrete values
83, 7, 3, 1, 0 at the bounds 100, 7, 6, 1, 0. -/
theorem find_suitable_prime_correct :
    (∀ b, 3 ≤ b →
      Nat.Prime (find_suitable_prime b) ∧ find_suitable_prime b % 4 = 3 ∧
        find_suitable_prime b ≤ b ∧
        ∀ q, Nat.Prime q → q % 4 = 3 → q ≤ b → q ≤ find_suitable_prime b) ∧
      (∀ b, b < 3 → find_suitable_prime b = b) ∧
      find_suitable_prime 100 = 83 ∧ find_suitable_prime 7 = 7 ∧
      find_suitable_prime 6 = 3 ∧ find_suitable_prime 1 = 1 ∧
      find_suitable_prime 0 = 0 :=
  ⟨find_suitable_prime_spec, find_suitable_prime_degenerate, fsp_100, fsp_7, fsp_6,
    by decide, by decide⟩

/-- Witness for C2 at the bounds 100 (maximality at the qualifying prime 83) and 2. -/
theorem find_suitable_prime_correct_witness :
    83 ≤ find_suitable_prime 100 ∧ find_suitable_prime 2 = 2 :=
  ⟨(find_suitable_prime_correct.1 100 (by norm_num)).2.2.2 83 (by norm_num) (by norm_num)
      (by norm_num),
    find_suitable_prime_correct.2.1 2 (by norm_num)⟩

/-- C3: on `2 ≤ x < prime` the round function computes the exact mathematical
folded residue `(x * x) mod prime` (or its complement), and the double-width
residue computation agrees with the exact integer formula for all base-width
inputs. -/
theorem permute_qpr_residue_formula (w : Nat) (cfg : RandomSequenceBuilder) (x : Nat)
    (hmax : cfg.max < 2 ^ w) (hvalid : cfg.prime = find_suitable_prime cfg.max)
    (hx2 : 2 ≤ x) (hxp : x < cfg.prime) :
    permute_qpr w cfg x =
      (if x ≤ cfg.prime / 2 then x * x % cfg.prime
       else cfg.prime - x * x % cfg.prime) ∧
      ∀ y p, y < 2 ^ w → residue w y p = y * y % p := by
  have hxw : x < 2 ^ w := by
    have h1 : cfg.prime ≤ cfg.max := by
      rw [hvalid]
      exact find_suitable_prime_le _
    omega
  exact ⟨by rw [permute_qpr_eq_qpr_fold w cfg x hx2 hxp hxw]; rfl,
    fun y p hy => residue_exact w y p hy⟩

/-- Witness for C3 at the u8 config with seed 0, max 3, input 2. -/
theorem permute_qpr_residue_formula_witness :
    permute_qpr 8 (with_max (seed_u8 0) 3) 2 =
      (if 2 ≤ (with_max (seed_u8 0) 3).prime / 2
       then 2 * 2 % (with_max (seed_u8 0) 3).prime
       else (with_max (seed_u8 0) 3).prime - 2 * 2 % (with_max (seed_u8 0) 3).prime) ∧
      residue 8 5 7 = 5 * 5 % 7 := by
  obtain ⟨h1, h2⟩ := permute_qpr_residue_formula 8 (with_max (seed_u8 0) 3) 2
    (by decide) rfl (by norm_num) (by decide)
  exact ⟨h1, h2 5 7 (by norm_num)⟩

/-- C4: for seed 0 on the usize (64-bit) type with inclusive max 5, the first six
values produced by successive `next()` calls on a fresh cursor are exactly
`[1, 4, 5, 2, 3, 0]`. -/
theorem small_domain_sequence_seed0 :
    next_values 64 (into_iter 64 (with_max (seed_u64 0) 5)) 6 = [1, 4, 5, 2, 3, 0] := by
  rw [cfg_seed0_max5_eq]
  decide

/-- C5: the `(k+1)`-th value produced by iterating `next()` from a fresh cursor is
exactly `n(k)` on that cursor, and `n` neither reads nor writes the cursor position
(it returns the same value whatever the current index is, and returns no state). -/
theorem next_value_agrees_with_n (w : Nat) (cfg : RandomSequenceBuilder) (k : Nat)
    (hmax : cfg.max < 2 ^ w) (hvalid : cfg.prime = find_suitable_prime cfg.max) :
    (next w (iterate_next w (into_iter w cfg) k)).1 = n w (into_iter w cfg) k ∧
      ∀ (s : RandomSequence) (c i : Nat),
        n w { config := s.config, start_index := s.start_index, current_index := c } i
          = n w s i := by
  have hp : cfg.prime < 2 ^ w := by
    rw [hvalid]
    exact lt_of_le_of_lt (find_suitable_prime_le _) hmax
  obtain ⟨hst, hcu⟩ := into_iter_lt_two_pow w cfg hmax hp
  refine ⟨?_, fun s c i => rfl⟩
  rw [iterate_next_eq w _ k hcu]
  rfl

/-- Witness for C5 at the u8 config with seed 0, max 3, offset 2. -/
theorem next_value_agrees_with_n_witness :
    (next 8 (iterate_next 8 (into_iter 8 (with_max (seed_u8 0) 3)) 2)).1 =
      n 8 (into_iter 8 (with_max (seed_u8 0) 3)) 2 ∧
      n 8 { config := (into_iter 8 (with_max (seed_u8 0) 3)).config,
            start_index := (into_iter 8 (with_max (seed_u8 0) 3)).start_index,
            current_index := 77 } 1
        = n 8 (into_iter 8 (with_max (seed_u8 0) 3)) 1 := by
  obtain ⟨h1, h2⟩ := next_value_agrees_with_n 8 (with_max (seed_u8 0) 3) 2
    (by decide) rfl
  exact ⟨h1, h2 (into_iter 8 (with_max (seed_u8 0) 3)) 77 1⟩

/-- C6 counterexample: on the fresh usize seed-0 max-3 cursor, `next()` produces 1,
but `n(index())` afterwards is 2 (the upcoming value), not the value just produced. -/
theorem n_index_after_next_cex :
    (next 64 (into_iter 64 (with_max (seed_u64 0) 3))).1 = 1 ∧
      n 64 (next 64 (into_iter 64 (with_max (seed_u64 0) 3))).2
        (index 64 (next 64 (into_iter 64 (with_max (seed_u64 0) 3))).2) = 2 ∧
      (next 64 (into_iter 64 (with_max (seed_u64 0) 3))).1 ≠
        n 64 (next 64 (into_iter 64 (with_max (seed_u64 0) 3))).2
          (index 64 (next 64 (into_iter 64 (with_max (seed_u64 0) 3))).2) := by
  decide

/-- C6 amended: `n(index())` always equals the value the next forward step will
produce; hence after `prev()` (which steps back before computing) it equals the
value just produced, while after `next()` it is one position past it. -/
theorem n_index_round_trip (w : Nat) (s : RandomSequence)
    (hc : s.current_index < 2 ^ w) (hs : s.start_index < 2 ^ w) :
    n w s (index w s) = (next w s).1 ∧
      n w (prev w s).2 (index w (prev w s).2) = (prev w s).1 := by
  have hw : 0 < 2 ^ w := Nat.pos_pow_of_pos w (by norm_num)
  have key : ∀ t : RandomSequence, t.start_index < 2 ^ w → t.current_index < 2 ^ w →
      n w t (index w t) = (next w t).1 := by
    intro t hts htc
    unfold n index next
    rw [wrap_add_sub_cancel w t.start_index t.current_index hts htc]
  refine ⟨key s hs hc, ?_⟩
  calc n w (prev w s).2 (index w (prev w s).2)
      = (next w (prev w s).2).1 := key (prev w s).2 hs (Nat.mod_lt _ hw)
    _ = (prev w s).1 := rfl

/-- Witness for the amended C6 at the usize seed-0 max-3 cursor. -/
theorem n_index_round_trip_witness :
    n 64 (into_iter 64 (with_max (seed_u64 0) 3))
        (index 64 (into_iter 64 (with_max (seed_u64 0) 3)))
      = (next 64 (into_iter 64 (with_max (seed_u64 0) 3))).1 ∧
      n 64 (prev 64 (into_iter 64 (with_max (seed_u64 0) 3))).2
          (index 64 (prev 64 (into_iter 64 (with_max (seed_u64 0) 3))).2)
        = (prev 64 (into_iter 64 (with_max (seed_u64 0) 3))).1 :=
  n_index_round_trip 64 (into_iter 64 (with_max (seed_u64 0) 3)) (by decide) (by decide)

/-- C7: stepping forward `k` times and then backward `k` times restores the cursor
state exactly, so its logical index and the next value it would produce are
unchanged. -/
theorem next_prev_roundtrip (w : Nat) (s : RandomSequence) (k : Nat)
    (hc : s.current_index < 2 ^ w) :
    iterate_prev w (iterate_next w s k) k = s ∧
      index w (iterate_prev w (iterate_next w s k) k) = index w s ∧
      (next w (iterate_prev w (iterate_next w s k) k)).1 = (next w s).1 := by
  have hw : 0 < 2 ^ w := Nat.pos_pow_of_pos w (by norm_num)
  have h1 : iterate_prev w (iterate_next w s k) k = s := by
    rw [iterate_next_eq w s k hc, iterate_prev_eq w _ k (Nat.mod_lt _ hw)]
    cases s with
    | mk cfg st c =>
      have hc' : c < 2 ^ w := hc
      simp only []
      rw [RandomSequence.mk.injEq]
      refine ⟨rfl, rfl, ?_⟩
      rw [Nat.mod_add_mod]
      rcases Nat.eq_zero_or_pos w with h0 | h0
      · subst h0
        have hc0 : c = 0 := by simpa using hc'
        subst hc0
        simp [Nat.mod_one]
      · have h2le : 2 ≤ 2 ^ w := by
          calc 2 = 2 ^ 1 := rfl
            _ ≤ 2 ^ w := Nat.pow_le_pow_right (by norm_num) h0
        have h1n : 1 % 2 ^ w = 1 := Nat.mod_eq_of_lt (by omega)
        rw [h1n]
        obtain ⟨m, hm⟩ : ∃ m, 2 ^ w = m + 1 := ⟨2 ^ w - 1, by omega⟩
        rw [hm] at hc' ⊢
        have h2 : c + k + k * (m + 1 - 1) = c + k * (m + 1) := by
          simp only [Nat.add_sub_cancel]
          ring
        rw [h2, Nat.add_mul_mod_self_right]
        exact Nat.mod_eq_of_lt hc'
  exact ⟨h1, by rw [h1], by rw [h1]⟩

/-- Witness for C7 at the u8 seed-0 max-3 cursor with 5 steps. -/
theorem next_prev_roundtrip_witness :
    iterate_prev 8 (iterate_next 8 (into_iter 8 (with_max (seed_u8 0) 3)) 5) 5 =
        into_iter 8 (with_max (seed_u8 0) 3) ∧
      index 8 (iterate_prev 8 (iterate_next 8 (into_iter 8 (with_max (seed_u8 0) 3)) 5) 5) =
        index 8 (into_iter 8 (with_max (seed_u8 0) 3)) ∧
      (next 8 (iterate_prev 8 (iterate_next 8 (into_iter 8 (with_max (seed_u8 0) 3)) 5) 5)).1 =
        (next 8 (into_iter 8 (with_max (seed_u8 0) 3))).1 :=
  next_prev_roundtrip 8 (into_iter 8 (with_max (seed_u8 0) 3)) 5 (by decide)

/-- C8 counterexample: on the u8 domain `[0, 1]` (narrower than the counter width),
the third `Iterator::next` call still yields a value (`some 0`), not the no-value
result the claim requires after `max + 1 = 2` results. -/
theorem iterator_exhaustion_cex :
    iter_collect 8 (into_iter 8 (with_max (seed_u8 0) 1)) 3 =
        [some 0, some 1, some 0] ∧
      (iter_collect 8 (into_iter 8 (with_max (seed_u8 0) 1)) 3)[2]? ≠ some none := by
  decide

/-- C8 amended: the iterator never reports exhaustion on any domain: every
`Iterator::next` call returns a value, so requesting any number of values yields
exactly that many results and cycles instead of ending. -/
theorem iterator_never_exhausts (w : Nat) (s : RandomSequence) (k : Nat) :
    (iter_collect w s k).length = k ∧
      (iter_collect w s k).all Option.isSome = true := by
  induction k generalizing s with
  | zero => simp [iter_collect]
  | succ k ih =>
    simp [iter_collect, iter_next, ih]

/-- C9: the prime search is total — the loop candidate strictly decreases and
bottoms out at 3, itself a prime congruent to 3 mod 4 — so for every bound `≥ 3`
the result satisfies the full prime contract. (Totality itself is witnessed by
`fsp_loop` being accepted as a terminating definition.) -/
theorem find_suitable_prime_total (b : Nat) (hb : 3 ≤ b) :
    Nat.Prime (find_suitable_prime b) ∧ find_suitable_prime b % 4 = 3 ∧
      3 ≤ find_suitable_prime b ∧ find_suitable_prime b ≤ b := by
  obtain ⟨hp, h4, hle, -⟩ := find_suitable_prime_spec b hb
  have h2 := hp.two_le
  exact ⟨hp, h4, by omega, hle⟩

/-- Witness for C9 at bound 7. -/
theorem find_suitable_prime_total_witness :
    Nat.Prime (find_suitable_prime 7) ∧ find_suitable_prime 7 % 4 = 3 ∧
      3 ≤ find_suitable_prime 7 ∧ find_suitable_prime 7 ≤ 7 :=
  find_suitable_prime_total 7 (by norm_num)

/-- C10: on a single-element domain (`max = 0`, any seed and any remaining fields)
the round function fixes 0, the materialized cursor starts at 0, and every value
produced by `n(k)`, `next()` or `prev()` is 0. -/
theorem max_zero_all_values_zero (w : Nat) (cfg : RandomSequenceBuilder)
    (h0 : cfg.max = 0) :
    permute_qpr w cfg 0 = 0 ∧
      (into_iter w cfg).start_index = 0 ∧
      (∀ k, n w (into_iter w cfg) k = 0) ∧
      (∀ s : RandomSequence, s.config = cfg →
        (next w s).1 = 0 ∧ (prev w s).1 = 0) := by
  refine ⟨permute_qpr_zero_of_max_zero w cfg h0, ?_, ?_, ?_⟩
  · simp only [into_iter]
    rw [if_neg (by omega)]
  · intro k
    exact n_internal_max_zero w (into_iter w cfg) h0 _
  · intro s hs
    have hsm : s.config.max = 0 := by rw [hs]; exact h0
    exact ⟨n_internal_max_zero w s hsm _, n_internal_max_zero w _ hsm _⟩

/-- Witness for C10 at width 8 with the all-zero config. -/
theorem max_zero_all_values_zero_witness :
    permute_qpr 8 ⟨0, 0, 0, 0, 0⟩ 0 = 0 ∧
      (into_iter 8 ⟨0, 0, 0, 0, 0⟩).start_index = 0 ∧
      n 8 (into_iter 8 ⟨0, 0, 0, 0, 0⟩) 5 = 0 := by
  obtain ⟨h1, h2, h3, h4⟩ := max_zero_all_values_zero 8 ⟨0, 0, 0, 0, 0⟩ rfl
  exact ⟨h1, h2, h3 5⟩

end RandUnique
